import Mathlib

/-!
Verification of the PE-binary parser `isledecomp/bin.py` (class `Bin`).

The Python source is shallowly embedded: the opened file is a `List Nat` of
byte values, Python ints are `Int` (or `Nat` where the source can only
produce non-negative values, e.g. fields unpacked with unsigned formats),
exceptions become an explicit `Except BinError` result, and the one
unbounded loop (`_populate_relocations`) is given explicit fuel, returning
`none` when the fuel runs out.
-/

set_option maxRecDepth 10000

deriving instance DecidableEq for Except

/-- Errors raised by the source. `structError` models Python `struct.error`
(raised by `struct.unpack` / `struct.iter_unpack` on a buffer of the wrong
length), `indexError` a plain `IndexError` from list indexing. -/
inductive BinError where
  | mzHeaderNotFound
  | peHeaderNotFound
  | sectionNotFound
  | invalidVirtualAddress
  | structError
  | indexError
deriving DecidableEq

/-- Little-endian value of a list of bytes (first byte is least significant),
as computed by `struct.unpack` with formats `<H` / `<I` on the exact slice. -/
def leVal : List Nat → Nat
  | [] => 0
  | b :: rest => b + 256 * leVal rest

/-- Interpretation of a 32-bit unsigned value as the signed value that
`struct.unpack "<i"` produces from the same four bytes. -/
def toSigned32 (n : Nat) : Int :=
  if n < 2147483648 then (n : Int) else (n : Int) - 4294967296

/-- Decoding of a byte buffer as consecutive 2-byte little-endian values,
as `struct.iter_unpack "<H"` does (the caller checks the even length). -/
def le16chunks : List Nat → List Nat
  | b0 :: b1 :: rest => (b0 + 256 * b1) :: le16chunks rest
  | _ => []

/-- Little-endian 4-byte encoding of a value (used to describe crafted
relocation data fed to the decoder). -/
def le32bytes (n : Nat) : List Nat :=
  [n % 256, n / 256 % 256, n / 65536 % 256, n / 16777216 % 256]

/-- Little-endian 2-byte encoding of a value. -/
def le16bytes (n : Nat) : List Nat :=
  [n % 256, n / 256 % 256]

/-- The slice `file[pos : pos+len]` of a byte list. -/
def listSlice (file : List Nat) (pos len : Nat) : List Nat :=
  (file.drop pos).take len

/-- Python `file.seek(pos)` followed by `file.read(n)` on a binary file:
returns at most `n` bytes starting at `pos`, fewer at end of file; a
negative `n` reads to the end of the file. -/
def fileRead (file : List Nat) (pos n : Int) : List Nat :=
  if n < 0 then file.drop pos.toNat
  else (file.drop pos.toNat).take n.toNat

/-- The record produced by `struct.unpack "<2s2x2H3I2H"` of the 0x18-byte
PE header. -/
structure PEHeader where
  Signature : List Nat
  Machine : Nat
  NumberOfSections : Nat
  TimeDateStamp : Nat
  PointerToSymbolTable : Nat
  NumberOfSymbols : Nat
  SizeOfOptionalHeader : Nat
  Characteristics : Nat
deriving DecidableEq

/-- The record produced by `struct.unpack "<8s6I2HI"` of a 0x28-byte section
table entry. `Name` is the raw 8-byte field. -/
structure ImageSectionHeader where
  Name : List Nat
  Misc : Nat
  VirtualAddress : Nat
  SizeOfRawData : Nat
  PointerToRawData : Nat
  PointerToRelocations : Nat
  PointerToLineNumbers : Nat
  NumberOfRelocations : Nat
  NumberOfLineNumbers : Nat
  Characteristics : Nat
deriving DecidableEq

/-- Result of `struct.pack "8s"`: truncate to 8 bytes and NUL-pad. -/
def packName8 (name : List Nat) : List Nat :=
  name.take 8 ++ List.replicate (8 - name.length) 0

/-- Source `section_name_match`: exact comparison of the raw 8-byte name
with the NUL-padded encoding of the queried name. -/
def section_name_match (s : ImageSectionHeader) (name : List Nat) : Bool :=
  s.Name == packName8 name

/-- Source `section_contains_vaddr`. -/
def section_contains_vaddr (s : ImageSectionHeader) (imagebase vaddr : Int) : Bool :=
  let debased := vaddr - imagebase
  let ofs := debased - (s.VirtualAddress : Int)
  decide (0 ≤ ofs ∧ ofs < (s.SizeOfRawData : Int))

/-- ASCII bytes of `".text"`. -/
def textName : List Nat := [0x2E, 0x74, 0x65, 0x78, 0x74]

/-- ASCII bytes of `".reloc"`. -/
def relocName : List Nat := [0x2E, 0x72, 0x65, 0x6C, 0x6F, 0x63]

/-- State of a `Bin` instance after `__init__`/`__enter__` steps: the opened
file's bytes, `self.imagebase`, `self.sections`, `self.last_section` and
`self._relocated_addrs` (a Python `set` of ints). -/
structure Bin where
  file : List Nat
  imagebase : Int
  sections : List ImageSectionHeader
  last_section : Option ImageSectionHeader
  relocated_addrs : Finset Int
deriving DecidableEq

/-- Source `Bin.get_relocated_addresses`: `sorted(self._relocated_addrs)`. -/
def Bin.get_relocated_addresses (b : Bin) : List Int :=
  b.relocated_addrs.sort (· ≤ ·)

/-- Source `Bin.is_relocated_addr`: `vaddr in self._relocated_addrs`. -/
def Bin.is_relocated_addr (b : Bin) (vaddr : Int) : Bool :=
  decide (vaddr ∈ b.relocated_addrs)

/-- Source `Bin._set_section_for_vaddr`: keep `last_section` if it contains
the address, otherwise take the first containing section in table order and
store it in `last_section`; raise `InvalidVirtualAddressError` if none. -/
def Bin.set_section_for_vaddr (b : Bin) (vaddr : Int) : Except BinError Bin :=
  match b.last_section with
  | some s =>
    if section_contains_vaddr s b.imagebase vaddr then .ok b
    else
      match b.sections.find? (fun s => section_contains_vaddr s b.imagebase vaddr) with
      | some s' => .ok { b with last_section := some s' }
      | none => .error .invalidVirtualAddress
  | none =>
    match b.sections.find? (fun s => section_contains_vaddr s b.imagebase vaddr) with
    | some s' => .ok { b with last_section := some s' }
    | none => .error .invalidVirtualAddress

/-- Source `Bin._get_section_by_name`: first section with a matching name,
`SectionNotFoundError` otherwise. -/
def Bin.get_section_by_name (b : Bin) (name : List Nat) : Except BinError ImageSectionHeader :=
  match b.sections.find? (fun s => section_name_match s name) with
  | some s => .ok s
  | none => .error .sectionNotFound

/-- Python list indexing `l[i]` for a possibly negative int index:
a negative index counts from the end; out of range is `none` (IndexError). -/
def pythonGet {α : Type} (l : List α) (i : Int) : Option α :=
  if 0 ≤ i then l.get? i.toNat
  else if (l.length : Int) + i < 0 then none
  else l.get? ((l.length : Int) + i).toNat

/-- Source `Bin.get_section_offset_by_index`: `self.sections[index - 1]`
(Python indexing) then `imagebase + VirtualAddress`. -/
def Bin.get_section_offset_by_index (b : Bin) (index : Int) : Except BinError Int :=
  match pythonGet b.sections (index - 1) with
  | some s => .ok (b.imagebase + (s.VirtualAddress : Int))
  | none => .error .indexError

/-- Source `Bin.get_section_offset_by_name`. -/
def Bin.get_section_offset_by_name (b : Bin) (name : List Nat) : Except BinError Int := do
  let s ← b.get_section_by_name name
  .ok (b.imagebase + (s.VirtualAddress : Int))

/-- Source `Bin.get_raw_addr`: resolve the owning section (updating the
cache) and translate the virtual address to a raw file offset. -/
def Bin.get_raw_addr (b : Bin) (vaddr : Int) : Except BinError (Int × Bin) := do
  let b ← b.set_section_for_vaddr vaddr
  match b.last_section with
  | some s =>
    .ok (vaddr - b.imagebase - (s.VirtualAddress : Int) + (s.PointerToRawData : Int), b)
  | none => .error .invalidVirtualAddress

/-- Source `Bin.is_valid_vaddr`: a pure containment probe over the section
table (the method body performs no assignment). -/
def Bin.is_valid_vaddr (b : Bin) (vaddr : Int) : Bool :=
  (b.sections.find? (fun s => section_contains_vaddr s b.imagebase vaddr)).isSome

/-- The method `is_valid_vaddr` viewed as a state transformer on the
instance, to make its frame behaviour explicit: the body only evaluates
`next(filter(...))` over `self.sections` and returns, so the state
component is the unchanged instance. -/
def Bin.is_valid_vaddr_st (b : Bin) (vaddr : Int) : Bool × Bin :=
  (b.is_valid_vaddr vaddr, b)

/-- Source `Bin.read`: resolve the owning section of the start address
(also updating the cache), compute the raw offset, and read the requested
bytes clamped to the resolved section's raw extent. -/
def Bin.read (b : Bin) (offset size : Int) : Except BinError (List Nat × Bin) := do
  let b ← b.set_section_for_vaddr offset
  let (raw_addr, b) ← b.get_raw_addr offset
  match b.last_section with
  | some s =>
    let clamped := min size ((s.PointerToRawData : Int) + (s.SizeOfRawData : Int) - raw_addr)
    .ok (fileRead b.file raw_addr clamped, b)
  | none => .error .invalidVirtualAddress

/-- The block-walking loop of `Bin._populate_relocations`: read an 8-byte
block header at `ofs` (`struct.unpack "<2I"`, so exactly 8 bytes are
required), stop on a zero block size, otherwise decode the 2-byte entries
(`struct.iter_unpack "<H"`, so an even length is required), keep the
non-zero ones as `imagebase + page_base + (entry & 0xFFF)`, and continue at
`ofs + block_size`. The loop has no bound in the source; fuel exhaustion is
reported as `none`. -/
def reloc_walk : Nat → Bin → Int → List Int → Option (Except BinError (List Int × Bin))
  | 0, _, _, _ => none
  | fuel + 1, b, ofs, acc =>
    match b.read ofs 8 with
    | .error e => some (.error e)
    | .ok (hdr, b) =>
      if hdr.length = 8 then
        let page_base := leVal (hdr.take 4)
        let block_size := leVal (hdr.drop 4)
        if block_size = 0 then some (.ok (acc, b))
        else
          match b.read (ofs + 8) ((block_size : Int) - 8) with
          | .error e => some (.error e)
          | .ok (data, b) =>
            if data.length % 2 = 0 then
              reloc_walk fuel b (ofs + (block_size : Int))
                (acc ++ ((le16chunks data).filter (fun v => v ≠ 0)).map
                  (fun v => b.imagebase + (page_base : Int) + ((v &&& 0xFFF : Nat) : Int)))
            else some (.error .structError)
      else some (.error .structError)

/-- The second pass of `Bin._populate_relocations`: for each collected site
address, read the four bytes there (`struct.unpack "<I"`, so exactly 4
bytes are required) and add the little-endian value to the set. -/
def read_reloc_values : Bin → List Int → Except BinError Bin
  | b, [] => .ok b
  | b, addr :: rest =>
    match b.read addr 4 with
    | .error e => .error e
    | .ok (bytes, b) =>
      if bytes.length = 4 then
        read_reloc_values
          { b with relocated_addrs := insert (leVal bytes : Int) b.relocated_addrs } rest
      else .error .structError

/-- Python `list.sort()` on a list of ints: ascending, duplicates kept.
On ints any stable ascending sort produces the same list, so insertion
sort is used (its recursion is structural, which keeps the definition
evaluable). -/
def sortInts (l : List Int) : List Int :=
  l.insertionSort (· ≤ ·)

/-- Source `Bin._populate_relocations`: locate `.reloc`, walk its blocks
collecting site addresses, sort them, then read the 4-byte value at each
site into `self._relocated_addrs`. -/
def Bin.populate_relocations (fuel : Nat) (b : Bin) : Option (Except BinError Bin) :=
  match b.get_section_offset_by_name relocName with
  | .error e => some (.error e)
  | .ok ofs =>
    match reloc_walk fuel b ofs [] with
    | none => none
    | some (.error e) => some (.error e)
    | some (.ok (addrs, b)) => some (read_reloc_values b (sortInts addrs))

/-- The header-parsing phase of `Bin.__enter__` (everything before
`_populate_relocations`): MZ magic, PE header offset at 0x3C, the 0x18-byte
PE header, the image base at offset 0x1C of the optional header, and
`NumberOfSections` section table entries. Each `struct.unpack` demands a
buffer of exactly the format's size. -/
def parseSection (bytes : List Nat) : ImageSectionHeader :=
  { Name := bytes.take 8
    Misc := leVal (listSlice bytes 8 4)
    VirtualAddress := leVal (listSlice bytes 12 4)
    SizeOfRawData := leVal (listSlice bytes 16 4)
    PointerToRawData := leVal (listSlice bytes 20 4)
    PointerToRelocations := leVal (listSlice bytes 24 4)
    PointerToLineNumbers := leVal (listSlice bytes 28 4)
    NumberOfRelocations := leVal (listSlice bytes 32 2)
    NumberOfLineNumbers := leVal (listSlice bytes 34 2)
    Characteristics := leVal (listSlice bytes 36 4) }

/-- Sequential parse of `n` 0x28-byte section table entries starting at
file position `pos`. -/
def parseSections (file : List Nat) : Nat → Nat → Except BinError (List ImageSectionHeader)
  | _, 0 => .ok []
  | pos, n + 1 => do
    let bytes := listSlice file pos 0x28
    if bytes.length ≠ 0x28 then throw .structError
    let rest ← parseSections file (pos + 0x28) n
    .ok (parseSection bytes :: rest)

/-- Header parsing of `Bin.__enter__`, producing the PE header record, the
image base and the section table. -/
def parseHeaders (file : List Nat) : Except BinError (PEHeader × Int × List ImageSectionHeader) := do
  let mz := file.take 2
  if mz.length ≠ 2 then throw .structError
  if mz ≠ [0x4D, 0x5A] then throw .mzHeaderNotFound
  let peOfsBytes := listSlice file 0x3C 4
  if peOfsBytes.length ≠ 4 then throw .structError
  let pe_header_start := leVal peOfsBytes
  let hdr := listSlice file pe_header_start 0x18
  if hdr.length ≠ 0x18 then throw .structError
  let pe_hdr : PEHeader :=
    { Signature := hdr.take 2
      Machine := leVal (listSlice hdr 4 2)
      NumberOfSections := leVal (listSlice hdr 6 2)
      TimeDateStamp := leVal (listSlice hdr 8 4)
      PointerToSymbolTable := leVal (listSlice hdr 12 4)
      NumberOfSymbols := leVal (listSlice hdr 16 4)
      SizeOfOptionalHeader := leVal (listSlice hdr 20 2)
      Characteristics := leVal (listSlice hdr 22 2) }
  if pe_hdr.Signature ≠ [0x50, 0x45] then throw .peHeaderNotFound
  let optional_hdr := listSlice file (pe_header_start + 0x18) pe_hdr.SizeOfOptionalHeader
  let ibBytes := listSlice optional_hdr 0x1C 4
  if ibBytes.length ≠ 4 then throw .structError
  let imagebase := toSigned32 (leVal ibBytes)
  let secs ← parseSections file (pe_header_start + 0x18 + optional_hdr.length)
      pe_hdr.NumberOfSections
  .ok (pe_hdr, imagebase, secs)

/-- The instance state right after `__init__` and the header-parsing part
of `__enter__`: file opened, headers parsed, `last_section = None`,
`_relocated_addrs` empty. -/
def initBin (file : List Nat) (imagebase : Int) (secs : List ImageSectionHeader) : Bin :=
  { file := file, imagebase := imagebase, sections := secs,
    last_section := none, relocated_addrs := ∅ }

/-- Outcome of a completed `Bin.__enter__` call: the returned handle or the
raised error, together with whether the OS-level file handle is still open
when control leaves `__enter__`. -/
structure EnterOutcome where
  result : Except BinError Bin
  fileOpen : Bool
deriving DecidableEq

/-- Source `Bin.__enter__`. The method's first statement opens the file
(`self.file = open(...)`); no statement of the method closes it, so the
handle is open on every exit path, the raising ones included. `none`
reports fuel exhaustion inside `_populate_relocations`. -/
def enter (fuel : Nat) (file : List Nat) : Option EnterOutcome :=
  match parseHeaders file with
  | .error e => some ⟨.error e, true⟩
  | .ok (_, imagebase, secs) =>
    match Bin.populate_relocations fuel (initBin file imagebase secs) with
    | none => none
    | some (.error e) => some ⟨.error e, true⟩
    | some (.ok b) =>
      match b.sections.find? (fun s => section_name_match s textName) with
      | none => some ⟨.error .sectionNotFound, true⟩
      | some text_section => some ⟨.ok { b with last_section := some text_section }, true⟩

/-- Source `Bin.__exit__`: closes the file handle if it is set. The
returned flag is the handle's state afterwards. -/
def exitBin (_fileOpen : Bool) : Bool := false

/-! ## Specification-side descriptions

The definitions below restate, from the spec's words, what the relocation
decoder is claimed to produce, and package the well-formedness conditions
("well-formed binary") under which the claims quantify. They are compared
with the embedded source functions in the theorems. -/

/-- A relocation block as the spec describes it: a page base and the list
of its 2-byte entries. -/
abbrev RelocBlock := Nat × List Nat

/-- On-disk encoding of one relocation block: 4-byte page base, 4-byte
total block size (8 + 2 per entry), then the 2-byte entries. -/
def encodeBlock (blk : RelocBlock) : List Nat :=
  le32bytes blk.1 ++ le32bytes (8 + 2 * blk.2.length) ++ (blk.2.map le16bytes).flatten

/-- On-disk encoding of a relocation block list (without the terminator). -/
def encodeBlocks : List RelocBlock → List Nat
  | [] => []
  | blk :: rest => encodeBlock blk ++ encodeBlocks rest

/-- The 8-byte all-zero terminator block header (block size 0). -/
def term8 : List Nat := List.replicate 8 0

/-- Fixup-site addresses described by the spec: for every non-zero entry of
every block, `imagebase + page_base + (entry & 0xFFF)`. -/
def specSites (imagebase : Int) : List RelocBlock → List Int
  | [] => []
  | blk :: rest =>
    (blk.2.filter (fun v => v ≠ 0)).map
      (fun v => imagebase + (blk.1 : Int) + ((v &&& 0xFFF : Nat) : Int))
      ++ specSites imagebase rest

/-- Bounds that make a block list encodable in the on-disk format: page
bases and block sizes fit in 4 bytes, entries in 2 bytes. -/
abbrev blocksWF (blocks : List RelocBlock) : Prop :=
  ∀ blk ∈ blocks, blk.1 < 4294967296 ∧ 8 + 2 * blk.2.length < 4294967296 ∧
    ∀ e ∈ blk.2, e < 65536

/-- The 4-byte little-endian value stored (via the section table's address
translation) at virtual address `a` — the spec's "value stored at the
fixup site". -/
def valueAt (secs : List ImageSectionHeader) (imagebase : Int) (file : List Nat) (a : Int) : Int :=
  match secs.find? (fun s => section_contains_vaddr s imagebase a) with
  | some s => (leVal (listSlice file ((a - imagebase - s.VirtualAddress).toNat + s.PointerToRawData) 4) : Int)
  | none => 0

/-- The cache invariant every reachable instance satisfies: `last_section`
is `None` or one of the parsed sections. -/
abbrev cacheWF (b : Bin) : Prop :=
  b.last_section = none ∨ ∃ s ∈ b.sections, b.last_section = some s

/-- Section `s` contains `a` and is the only section of the table that
does. -/
abbrev uniqueAt (secs : List ImageSectionHeader) (imagebase : Int)
    (s : ImageSectionHeader) (a : Int) : Prop :=
  section_contains_vaddr s imagebase a = true ∧
  ∀ s' ∈ secs, section_contains_vaddr s' imagebase a = true → s' = s

/-- A fixup site is clean when a unique section contains it, the 4-byte
read at it stays inside that section, and the file holds the section's
whole raw extent. -/
abbrev siteClean (secs : List ImageSectionHeader) (imagebase : Int)
    (file : List Nat) (a : Int) : Prop :=
  ∃ s ∈ secs, uniqueAt secs imagebase s a ∧
    a - imagebase - (s.VirtualAddress : Int) + 4 ≤ (s.SizeOfRawData : Int) ∧
    s.PointerToRawData + s.SizeOfRawData ≤ file.length

/-! ## Concrete binaries and instance states used in the witnesses -/

/-- A well-formed MZ/PE header prefix with `n` sections: PE header at 0x40,
a 0x20-byte all-zero optional header (image base 0), section table at 0x78. -/
def headerBytes (n : Nat) : List Nat :=
  [0x4D, 0x5A] ++ List.replicate 58 0 ++ [0x40, 0, 0, 0] ++
  ([0x50, 0x45, 0, 0] ++ [0, 0] ++ [n % 256, n / 256] ++ List.replicate 12 0 ++
    [0x20, 0] ++ [0, 0]) ++
  List.replicate 32 0

/-- A file whose headers parse with an empty section table. -/
def fileNoSections : List Nat := headerBytes 0

/-- The 0x28-byte section table entry for a section named `.reloc` at
virtual address 0x1000, raw size 0x10, raw pointer 0xA0. -/
def relocSectionBytes : List Nat :=
  [0x2E, 0x72, 0x65, 0x6C, 0x6F, 0x63, 0, 0] ++ List.replicate 4 0 ++
  [0, 0x10, 0, 0] ++ [0x10, 0, 0, 0] ++ [0xA0, 0, 0, 0] ++ List.replicate 16 0

/-- A file with a single `.reloc` section (no `.text`) whose relocation
table is just the terminator block. -/
def fileOnlyReloc : List Nat :=
  headerBytes 1 ++ relocSectionBytes ++ List.replicate 8 0

/-- The parsed section record of `relocSectionBytes`. -/
def relocSection : ImageSectionHeader :=
  { Name := [0x2E, 0x72, 0x65, 0x6C, 0x6F, 0x63, 0, 0], Misc := 0,
    VirtualAddress := 0x1000, SizeOfRawData := 0x10, PointerToRawData := 0xA0,
    PointerToRelocations := 0, PointerToLineNumbers := 0,
    NumberOfRelocations := 0, NumberOfLineNumbers := 0, Characteristics := 0 }

/-- The 0x28-byte section table entry for a `.reloc` section of raw size
only 4 (too short for the 8-byte block header) at virtual address 0x1000,
raw pointer 0xA0. -/
def shortRelocSectionBytes : List Nat :=
  [0x2E, 0x72, 0x65, 0x6C, 0x6F, 0x63, 0, 0] ++ List.replicate 4 0 ++
  [0, 0x10, 0, 0] ++ [4, 0, 0, 0] ++ [0xA0, 0, 0, 0] ++ List.replicate 16 0

/-- A file whose single section is the 4-byte `.reloc` section and whose
table has no `.text`: the relocation pass's first 8-byte header read is
clamped to 4 bytes, so `struct.unpack "<2I"` raises `struct.error`. -/
def fileShortReloc : List Nat :=
  headerBytes 1 ++ shortRelocSectionBytes ++ List.replicate 8 0

/-- The parsed section record of `shortRelocSectionBytes`. -/
def shortRelocSection : ImageSectionHeader :=
  { Name := [0x2E, 0x72, 0x65, 0x6C, 0x6F, 0x63, 0, 0], Misc := 0,
    VirtualAddress := 0x1000, SizeOfRawData := 4, PointerToRawData := 0xA0,
    PointerToRelocations := 0, PointerToLineNumbers := 0,
    NumberOfRelocations := 0, NumberOfLineNumbers := 0, Characteristics := 0 }

/-- A data section covering virtual addresses 0x100–0x1FF at raw offset 0. -/
def dataSectionW : ImageSectionHeader :=
  { Name := [0x2E, 0x64, 0x61, 0x74, 0x61, 0, 0, 0], Misc := 0,
    VirtualAddress := 0x100, SizeOfRawData := 0x100, PointerToRawData := 0,
    PointerToRelocations := 0, PointerToLineNumbers := 0,
    NumberOfRelocations := 0, NumberOfLineNumbers := 0, Characteristics := 0 }

/-- A relocation section covering virtual addresses 0x200–0x21F at raw
offset 0x100. -/
def relocSectionW : ImageSectionHeader :=
  { Name := [0x2E, 0x72, 0x65, 0x6C, 0x6F, 0x63, 0, 0], Misc := 0,
    VirtualAddress := 0x200, SizeOfRawData := 0x20, PointerToRawData := 0x100,
    PointerToRelocations := 0, PointerToLineNumbers := 0,
    NumberOfRelocations := 0, NumberOfLineNumbers := 0, Characteristics := 0 }

/-- One crafted relocation block: page 0x100, entries 0x10 and 0x12. -/
def blocksW : List RelocBlock := [(0x100, [0x10, 0x12])]

/-- File contents for the crafted instance: known 4-byte values at raw
offsets 0x10 and 0x12, the encoded block plus terminator at raw 0x100. -/
def fileW : List Nat :=
  List.replicate 16 0 ++ [0x11, 0x22, 0x33, 0x44, 0x55, 0x66] ++
  List.replicate 234 0 ++ (encodeBlocks blocksW ++ term8) ++ List.replicate 12 0

/-- The crafted instance state: image base 0, the two sections above,
fresh cache and relocation set. -/
def binW : Bin :=
  { file := fileW, imagebase := 0, sections := [dataSectionW, relocSectionW],
    last_section := none, relocated_addrs := ∅ }


/-! ## Basic lemmas about the embedded operations -/

/-- If `s` is the only element of `l` satisfying `p`, the first match is
`s`. -/
theorem find?_eq_some_of_unique {α : Type} (p : α → Bool) (l : List α) (s : α)
    (hmem : s ∈ l) (hp : p s = true) (hu : ∀ x ∈ l, p x = true → x = s) :
    l.find? p = some s := by
  induction l with
  | nil => cases hmem
  | cons x xs ih =>
    by_cases hx : p x = true
    · have hxs : x = s := hu x (List.mem_cons_self x xs) hx
      rw [List.find?_cons_of_pos _ hx, hxs]
    · rw [List.find?_cons_of_neg _ (by simpa using hx)]
      rcases List.mem_cons.mp hmem with h | h
      · exact absurd (h ▸ hp) hx
      · exact ih h (fun y hy hpy => hu y (List.mem_cons_of_mem _ hy) hpy)

/-- Updating `last_section` to its current value is the identity. -/
theorem Bin.update_last_self (b : Bin) (s : Option ImageSectionHeader)
    (h : b.last_section = s) : { b with last_section := s } = b := by
  cases b
  cases h
  rfl

/-- `_set_section_for_vaddr` only returns states differing from the input
in the cache field. -/
theorem set_section_for_vaddr_frame (b : Bin) (v : Int) (b' : Bin)
    (h : b.set_section_for_vaddr v = .ok b') :
    b'.file = b.file ∧ b'.imagebase = b.imagebase ∧ b'.sections = b.sections ∧
    b'.relocated_addrs = b.relocated_addrs := by
  unfold Bin.set_section_for_vaddr at h
  split at h
  next c hc =>
    split at h
    · cases h
      exact ⟨rfl, rfl, rfl, rfl⟩
    · split at h
      · cases h
        exact ⟨rfl, rfl, rfl, rfl⟩
      · cases h
  next hc =>
    split at h
    · cases h
      exact ⟨rfl, rfl, rfl, rfl⟩
    · cases h

/-- Resolution under a table-drawn cache and a unique containing section:
the lookup succeeds and stores exactly that section. -/
theorem set_section_for_vaddr_unique (b : Bin) (v : Int) (s : ImageSectionHeader)
    (hmem : s ∈ b.sections) (hu : uniqueAt b.sections b.imagebase s v)
    (hc : cacheWF b) :
    b.set_section_for_vaddr v = .ok { b with last_section := some s } := by
  obtain ⟨hcont, huniq⟩ := hu
  have hfind : b.sections.find? (fun s' => section_contains_vaddr s' b.imagebase v) = some s :=
    find?_eq_some_of_unique _ _ _ hmem hcont huniq
  rcases hc with hnone | ⟨c, hcmem, hcs⟩
  · simp [Bin.set_section_for_vaddr, hnone, hfind]
  · by_cases hcc : section_contains_vaddr c b.imagebase v = true
    · have hcse : c = s := huniq c hcmem hcc
      subst hcse
      simp [Bin.set_section_for_vaddr, hcs, hcc, Bin.update_last_self b _ hcs]
    · simp [Bin.set_section_for_vaddr, hcs, hcc, hfind]

/-- A cache hit: resolution on a state whose cache contains the address is
the identity. -/
theorem set_section_for_vaddr_hit (b : Bin) (v : Int) (s : ImageSectionHeader)
    (hls : b.last_section = some s)
    (hcont : section_contains_vaddr s b.imagebase v = true) :
    b.set_section_for_vaddr v = .ok b := by
  simp [Bin.set_section_for_vaddr, hls, hcont]

/-- Claim helper: a successful resolution stores a section that contains
the queried address. -/
theorem set_section_for_vaddr_sound (b : Bin) (v : Int) (b' : Bin)
    (h : b.set_section_for_vaddr v = .ok b') :
    ∃ s, b'.last_section = some s ∧ section_contains_vaddr s b'.imagebase v = true := by
  unfold Bin.set_section_for_vaddr at h
  split at h
  next c hc =>
    split at h
    next hcc =>
      cases h
      exact ⟨c, hc, hcc⟩
    next hcc =>
      split at h
      next s' hfind =>
        cases h
        have hs' := List.find?_some hfind
        exact ⟨s', rfl, hs'⟩
      next => cases h
  next hc =>
    split at h
    next s' hfind =>
      cases h
      have hs' := List.find?_some hfind
      exact ⟨s', rfl, hs'⟩
    next => cases h

/-- Reading under a table-drawn cache and a unique containing section:
`read` resolves that section, returns the clamped slice starting at the
translated raw offset, and leaves it in the cache. -/
theorem read_in_section (b : Bin) (a n : Int) (s : ImageSectionHeader)
    (hmem : s ∈ b.sections) (hu : uniqueAt b.sections b.imagebase s a)
    (hc : cacheWF b) :
    b.read a n = .ok
      (fileRead b.file (a - b.imagebase - (s.VirtualAddress : Int) + (s.PointerToRawData : Int))
        (min n ((s.PointerToRawData : Int) + (s.SizeOfRawData : Int) -
          (a - b.imagebase - (s.VirtualAddress : Int) + (s.PointerToRawData : Int)))),
      { b with last_section := some s }) := by
  have h1 := set_section_for_vaddr_unique b a s hmem hu hc
  have h2 : ({ b with last_section := some s } : Bin).set_section_for_vaddr a =
      .ok { b with last_section := some s } :=
    set_section_for_vaddr_hit _ a s rfl hu.1
  simp only [Bin.read, Bin.get_raw_addr, h1, h2, bind, Except.bind]

/-- C3: for a virtual address `v` whose (unique) owning section is `s` and
any requested size `n`, `read` returns exactly the bytes at raw offset
`v - imagebase - s.VirtualAddress + s.PointerToRawData`, of length exactly
`min n (remaining raw extent)`, never crossing the section's raw end and
never raising. -/
theorem read_returns_clamped_bytes (b : Bin) (v : Int) (n : Nat) (s : ImageSectionHeader)
    (hmem : s ∈ b.sections) (hu : uniqueAt b.sections b.imagebase s v)
    (hc : cacheWF b)
    (hfile : s.PointerToRawData + s.SizeOfRawData ≤ b.file.length) :
    b.is_valid_vaddr v = true ∧
    ∃ d : Nat, (d : Int) = v - b.imagebase - (s.VirtualAddress : Int) ∧
      b.read v (n : Int) = .ok
        (listSlice b.file (s.PointerToRawData + d) (min n (s.SizeOfRawData - d)),
          { b with last_section := some s }) ∧
      (listSlice b.file (s.PointerToRawData + d) (min n (s.SizeOfRawData - d))).length
        = min n (s.SizeOfRawData - d) ∧
      s.PointerToRawData + d + min n (s.SizeOfRawData - d)
        ≤ s.PointerToRawData + s.SizeOfRawData := by
  have hcont := hu.1
  rw [section_contains_vaddr] at hcont
  simp only [decide_eq_true_eq] at hcont
  obtain ⟨h0, h1⟩ := hcont
  have hvalid : b.is_valid_vaddr v = true := by
    unfold Bin.is_valid_vaddr
    rw [List.find?_isSome]
    exact ⟨s, hmem, hu.1⟩
  have hd : (((v - b.imagebase - (s.VirtualAddress : Int)).toNat : Nat) : Int)
      = v - b.imagebase - (s.VirtualAddress : Int) := Int.toNat_of_nonneg h0
  refine ⟨hvalid, (v - b.imagebase - (s.VirtualAddress : Int)).toNat, hd, ?_, ?_, ?_⟩
  · rw [read_in_section b v (n : Int) s hmem hu hc]
    have hmin0 : ¬ (min (n : Int) ((s.PointerToRawData : Int) + (s.SizeOfRawData : Int) -
        (v - b.imagebase - (s.VirtualAddress : Int) + (s.PointerToRawData : Int))) < 0) := by
      omega
    have hpos : (v - b.imagebase - (s.VirtualAddress : Int) + (s.PointerToRawData : Int)).toNat
        = s.PointerToRawData + (v - b.imagebase - (s.VirtualAddress : Int)).toNat := by
      omega
    have hminN : (min (n : Int) ((s.PointerToRawData : Int) + (s.SizeOfRawData : Int) -
        (v - b.imagebase - (s.VirtualAddress : Int) + (s.PointerToRawData : Int)))).toNat
        = min n (s.SizeOfRawData - (v - b.imagebase - (s.VirtualAddress : Int)).toNat) := by
      omega
    simp [fileRead, hmin0, hpos, hminN, listSlice]
  · simp only [listSlice, List.length_take, List.length_drop]
    omega
  · omega

/-- When some section contains the address, resolution succeeds (under a
table-drawn cache) and stores a containing section. -/
theorem set_section_for_vaddr_ok_of_exists (b : Bin) (v : Int) (hc : cacheWF b)
    (hP : ∃ s ∈ b.sections, section_contains_vaddr s b.imagebase v = true) :
    ∃ s', b.set_section_for_vaddr v = .ok { b with last_section := some s' } ∧
      section_contains_vaddr s' b.imagebase v = true := by
  rcases hc with hnone | ⟨c, hcmem, hcs⟩
  · obtain ⟨s, hs, hcont⟩ := hP
    cases hfind : b.sections.find? (fun s' => section_contains_vaddr s' b.imagebase v) with
    | none =>
      have := List.find?_eq_none.mp hfind s hs
      exact absurd hcont (by simpa using this)
    | some s' =>
      have hcont' := List.find?_some hfind
      exact ⟨s', by simp [Bin.set_section_for_vaddr, hnone, hfind], hcont'⟩
  · by_cases hcc : section_contains_vaddr c b.imagebase v = true
    · refine ⟨c, ?_, hcc⟩
      rw [set_section_for_vaddr_hit b v c hcs hcc, Bin.update_last_self b _ hcs]
    · obtain ⟨s, hs, hcont⟩ := hP
      cases hfind : b.sections.find? (fun s' => section_contains_vaddr s' b.imagebase v) with
      | none =>
        have := List.find?_eq_none.mp hfind s hs
        exact absurd hcont (by simpa using this)
      | some s' =>
        have hcont' := List.find?_some hfind
        exact ⟨s', by simp [Bin.set_section_for_vaddr, hcs, hcc, hfind], hcont'⟩

/-- When no section contains the address, resolution raises
`InvalidVirtualAddressError` (under a table-drawn cache). -/
theorem set_section_for_vaddr_error_of_not_exists (b : Bin) (v : Int) (hc : cacheWF b)
    (hP : ¬ ∃ s ∈ b.sections, section_contains_vaddr s b.imagebase v = true) :
    b.set_section_for_vaddr v = .error .invalidVirtualAddress := by
  have hfind : b.sections.find? (fun s' => section_contains_vaddr s' b.imagebase v) = none :=
    List.find?_eq_none.mpr (fun x hx => by
      simp only [Bool.not_eq_true]
      by_contra hpx
      exact hP ⟨x, hx, by simpa using hpx⟩)
  rcases hc with hnone | ⟨c, hcmem, hcs⟩
  · simp [Bin.set_section_for_vaddr, hnone, hfind]
  · have hcc : ¬ section_contains_vaddr c b.imagebase v = true := fun hcc => hP ⟨c, hcmem, hcc⟩
    simp [Bin.set_section_for_vaddr, hcs, hcc, hfind]

/-- C4: whatever the cache state (matching, stale or absent, overlapping
sections included), a successful lookup stores back into the cache a
section that actually contains the queried address. -/
theorem cache_never_misattributes (b : Bin) (v : Int) (b' : Bin)
    (h : b.set_section_for_vaddr v = .ok b') :
    ∃ s, b'.last_section = some s ∧ section_contains_vaddr s b'.imagebase v = true :=
  set_section_for_vaddr_sound b v b' h

/-- C5: `sectionFor` / `rawOffset` / `read` raise `InvalidVirtualAddress`
exactly when no section of the table contains the start address; `read`'s
failure does not depend on the requested size, and `InvalidVirtualAddress`
is the only error any of them can raise. -/
theorem invalid_vaddr_error_iff (b : Bin) (v : Int) (hc : cacheWF b) :
    (b.set_section_for_vaddr v = .error .invalidVirtualAddress ↔
      ¬ ∃ s ∈ b.sections, section_contains_vaddr s b.imagebase v = true)
  ∧ (b.get_raw_addr v = .error .invalidVirtualAddress ↔
      ¬ ∃ s ∈ b.sections, section_contains_vaddr s b.imagebase v = true)
  ∧ (∀ n : Int, b.read v n = .error .invalidVirtualAddress ↔
      ¬ ∃ s ∈ b.sections, section_contains_vaddr s b.imagebase v = true)
  ∧ (∀ n : Int, ∀ e : BinError, b.read v n = .error e → e = .invalidVirtualAddress) := by
  by_cases hP : ∃ s ∈ b.sections, section_contains_vaddr s b.imagebase v = true
  · obtain ⟨s', hok, hcont'⟩ := set_section_for_vaddr_ok_of_exists b v hc hP
    have h2 : ({ b with last_section := some s' } : Bin).set_section_for_vaddr v =
        .ok { b with last_section := some s' } :=
      set_section_for_vaddr_hit _ v s' rfl hcont'
    refine ⟨by simp [hok, hP], by simp [Bin.get_raw_addr, hok, bind, Except.bind, hP],
      fun n => by simp [Bin.read, Bin.get_raw_addr, hok, h2, bind, Except.bind, hP],
      fun n e he => ?_⟩
    rw [Bin.read] at he
    simp only [hok, h2, bind, Except.bind, Bin.get_raw_addr] at he
    cases he
  · have herr := set_section_for_vaddr_error_of_not_exists b v hc hP
    refine ⟨by simp [herr, hP], by simp [Bin.get_raw_addr, herr, bind, Except.bind, hP],
      fun n => by simp [Bin.read, Bin.get_raw_addr, herr, bind, Except.bind, hP],
      fun n e he => ?_⟩
    rw [Bin.read] at he
    simp only [herr, bind, Except.bind] at he
    cases he
    rfl

/-- C6: `is_valid_vaddr` is true exactly when some section of the table
contains the address under the containment rule, and in particular is
false for every address below the image base. The embedding as a total
`Bool`-valued function reflects that the method cannot raise. -/
theorem is_valid_vaddr_iff_contains (b : Bin) (v : Int) :
    (b.is_valid_vaddr v = true ↔
      ∃ s ∈ b.sections, section_contains_vaddr s b.imagebase v = true)
  ∧ (v < b.imagebase → b.is_valid_vaddr v = false) := by
  have hiff : b.is_valid_vaddr v = true ↔
      ∃ s ∈ b.sections, section_contains_vaddr s b.imagebase v = true := by
    unfold Bin.is_valid_vaddr
    exact List.find?_isSome
  refine ⟨hiff, fun hv => ?_⟩
  by_contra hne
  simp only [Bool.not_eq_false] at hne
  obtain ⟨s, hs, hcont⟩ := hiff.mp hne
  rw [section_contains_vaddr] at hcont
  simp only [decide_eq_true_eq] at hcont
  have hVA : (0 : Int) ≤ (s.VirtualAddress : Int) := Int.natCast_nonneg _
  omega

/-- C8: `get_relocated_addresses` is strictly ascending (hence duplicate
free) and enumerates exactly the members of the relocation set, i.e. the
addresses on which `is_relocated_addr` answers true. -/
theorem relocated_addresses_sorted_iff_member (b : Bin) :
    List.Sorted (· < ·) b.get_relocated_addresses ∧
    ∀ v : Int, (v ∈ b.get_relocated_addresses ↔ b.is_relocated_addr v = true) := by
  constructor
  · exact Finset.sort_sorted_lt _
  · intro v
    simp [Bin.get_relocated_addresses, Bin.is_relocated_addr, Finset.mem_sort]

/-- C9: `get_section_offset_by_index 0` does not fail on a non-empty
section table: the Python index `0 - 1 = -1` wraps around and selects the
last section, whose start virtual address is returned. -/
theorem section_offset_index_zero_wraps (b : Bin) (h : b.sections ≠ []) :
    b.get_section_offset_by_index 0 =
      .ok (b.imagebase + ((b.sections.getLast h).VirtualAddress : Int)) := by
  have hlen : b.sections.length ≠ 0 := fun hh => h (List.length_eq_zero.mp hh)
  unfold Bin.get_section_offset_by_index pythonGet
  have h1 : ¬ (0 : Int) ≤ 0 - 1 := by omega
  have h2 : ¬ ((b.sections.length : Int) + (0 - 1) < 0) := by omega
  rw [if_neg h1, if_neg h2]
  have h3 : ((b.sections.length : Int) + (0 - 1)).toNat = b.sections.length - 1 := by omega
  rw [h3]
  have h4 : b.sections.get? (b.sections.length - 1) = some (b.sections.getLast h) := by
    rw [List.get?_eq_getElem?, ← List.getLast?_eq_getElem?, List.getLast?_eq_getLast _ h]
  rw [h4]

/-- C10: `is_valid_vaddr` leaves the instance unchanged — its state
component is the input state — while `_set_section_for_vaddr` (used by
`read` and `get_raw_addr`) does write the resolved section into the
cache, as the exhibited state change shows. -/
theorem is_valid_vaddr_no_state_change :
    (∀ (b : Bin) (v : Int), (b.is_valid_vaddr_st v).2 = b) ∧
    (∃ (b b' : Bin) (v : Int), b.set_section_for_vaddr v = .ok b' ∧
      b'.last_section ≠ b.last_section) := by
  refine ⟨fun b v => rfl,
    ⟨binW, { binW with last_section := some dataSectionW }, 0x1FF, ?_, by decide⟩⟩
  rfl

/-- Witness for C3 at the claimed boundary: a read starting one byte
before the data section's end with size 10 returns exactly 1 byte. -/
theorem read_returns_clamped_bytes_witness :
    ∃ bytes : List Nat,
      binW.read 0x1FF ((10 : Nat) : Int) =
        .ok (bytes, { binW with last_section := some dataSectionW }) ∧
      bytes.length = 1 := by
  obtain ⟨hval, d, hd, hread, hlen, hbound⟩ :=
    read_returns_clamped_bytes binW 0x1FF 10 dataSectionW (by decide) (by decide)
      (Or.inl rfl) (by decide)
  have hib : binW.imagebase = 0 := rfl
  have hva : ((dataSectionW.VirtualAddress : Nat) : Int) = 0x100 := rfl
  rw [hib, hva] at hd
  have hdv : d = 255 := by omega
  subst hdv
  exact ⟨_, hread, by rw [hlen]; decide⟩

/-- Witness for C4: a concrete successful lookup stores a containing
section. -/
theorem cache_never_misattributes_witness :
    ∃ s, ({ binW with last_section := some dataSectionW } : Bin).last_section = some s ∧
      section_contains_vaddr s
        ({ binW with last_section := some dataSectionW } : Bin).imagebase 0x1FF = true :=
  cache_never_misattributes binW 0x1FF { binW with last_section := some dataSectionW } rfl

/-- Witness for C5 at a concrete instance and an address below every
section. -/
theorem invalid_vaddr_error_iff_witness :
    (binW.set_section_for_vaddr 5 = .error .invalidVirtualAddress ↔
      ¬ ∃ s ∈ binW.sections, section_contains_vaddr s binW.imagebase 5 = true)
  ∧ (binW.get_raw_addr 5 = .error .invalidVirtualAddress ↔
      ¬ ∃ s ∈ binW.sections, section_contains_vaddr s binW.imagebase 5 = true)
  ∧ (∀ n : Int, binW.read 5 n = .error .invalidVirtualAddress ↔
      ¬ ∃ s ∈ binW.sections, section_contains_vaddr s binW.imagebase 5 = true)
  ∧ (∀ n : Int, ∀ e : BinError, binW.read 5 n = .error e → e = .invalidVirtualAddress) :=
  invalid_vaddr_error_iff binW 5 (Or.inl rfl)

/-- Witness for C6: an address below the image base is not valid. -/
theorem is_valid_vaddr_iff_contains_witness : binW.is_valid_vaddr (-7) = false :=
  (is_valid_vaddr_iff_contains binW (-7)).2 (by decide)

/-- Witness for C9: on the crafted two-section instance, index 0 yields
the last section's start address 0x200. -/
theorem section_offset_index_zero_wraps_witness :
    binW.get_section_offset_by_index 0 = .ok 0x200 := by
  have h := section_offset_index_zero_wraps binW (by decide)
  rw [h]
  decide

/-- C1 (amended): on every completed `__enter__`, failing or not, the file
handle is still open when control leaves the method — a failed open does
NOT release it; only a separate `__exit__`/close does. -/
theorem enter_keeps_handle_open (fuel : Nat) (file : List Nat) (o : EnterOutcome)
    (h : enter fuel file = some o) : o.fileOpen = true := by
  unfold enter at h
  split at h
  · cases h
    rfl
  · split at h
    · cases h
    · cases h
      rfl
    · split at h
      · cases h
        rfl
      · cases h
        rfl

/-- Counterexample to C1 as stated: on the file `[0, 0]` (no MZ magic),
open fails with `MissingDosHeader` while the file handle is still open. -/
theorem open_failure_leaves_handle_open_cex :
    enter 1 [0, 0] = some ⟨.error .mzHeaderNotFound, true⟩ := by decide

/-- Witness for the amended C1 at a concrete failing file. -/
theorem enter_keeps_handle_open_witness :
    (⟨.error .mzHeaderNotFound, true⟩ : EnterOutcome).fileOpen = true :=
  enter_keeps_handle_open 1 [1, 2] ⟨.error .mzHeaderNotFound, true⟩ (by decide)

/-- A successful `read` never changes the parsed section table. -/
theorem read_ok_sections (b : Bin) (a n : Int) (r : List Nat × Bin)
    (h : b.read a n = .ok r) : r.2.sections = b.sections := by
  rw [Bin.read] at h
  cases hss : b.set_section_for_vaddr a with
  | error e =>
    simp only [hss, bind, Except.bind] at h
    cases h
  | ok b1 =>
    simp only [hss, bind, Except.bind, Bin.get_raw_addr] at h
    cases hss2 : b1.set_section_for_vaddr a with
    | error e =>
      simp only [hss2, bind, Except.bind] at h
      cases h
    | ok b2 =>
      simp only [hss2, bind, Except.bind] at h
      cases hls : b2.last_section with
      | none =>
        simp only [hls] at h
        cases h
      | some s =>
        simp only [hls] at h
        cases h
        exact ((set_section_for_vaddr_frame b1 a b2 hss2).2.2.1).trans
          (set_section_for_vaddr_frame b a b1 hss).2.2.1

/-- The relocation block walk never changes the parsed section table. -/
theorem reloc_walk_sections (fuel : Nat) : ∀ (b : Bin) (ofs : Int) (acc addrs : List Int)
    (b' : Bin), reloc_walk fuel b ofs acc = some (.ok (addrs, b')) →
    b'.sections = b.sections := by
  induction fuel with
  | zero => intro b ofs acc addrs b' h; cases h
  | succ fuel ih =>
    intro b ofs acc addrs b' h
    rw [reloc_walk] at h
    cases hr : b.read ofs 8 with
    | error e =>
      rw [hr] at h
      cases h
    | ok p =>
      obtain ⟨hdr, b1⟩ := p
      rw [hr] at h
      simp only at h
      split at h
      · split at h
        · cases h
          exact read_ok_sections b ofs 8 _ hr
        · cases hr2 : b1.read (ofs + 8) ((leVal (hdr.drop 4) : Int) - 8) with
          | error e =>
            rw [hr2] at h
            cases h
          | ok p2 =>
            obtain ⟨data, b2⟩ := p2
            rw [hr2] at h
            simp only at h
            split at h
            · exact (ih b2 _ _ addrs b' h).trans
                ((read_ok_sections b1 _ _ _ hr2).trans (read_ok_sections b ofs 8 _ hr))
            · cases h
      · cases h

/-- The second relocation pass never changes the parsed section table. -/
theorem read_reloc_values_sections : ∀ (addrs : List Int) (b b' : Bin),
    read_reloc_values b addrs = .ok b' → b'.sections = b.sections := by
  intro addrs
  induction addrs with
  | nil =>
    intro b b' h
    cases h
    rfl
  | cons a rest ih =>
    intro b b' h
    rw [read_reloc_values] at h
    cases hr : b.read a 4 with
    | error e =>
      rw [hr] at h
      cases h
    | ok p =>
      obtain ⟨bytes, b1⟩ := p
      rw [hr] at h
      simp only at h
      split at h
      · exact (ih _ _ h).trans (read_ok_sections b a 4 _ hr)
      · cases h

/-- A successful `_populate_relocations` never changes the parsed section
table. -/
theorem populate_relocations_sections (fuel : Nat) (b b' : Bin)
    (h : Bin.populate_relocations fuel b = some (.ok b')) :
    b'.sections = b.sections := by
  rw [Bin.populate_relocations] at h
  split at h
  · cases h
  · split at h
    · cases h
    · cases h
    · next addrs b2 heq =>
      injection h with h'
      exact (read_reloc_values_sections _ _ _ h').trans
        (reloc_walk_sections fuel b _ [] addrs b2 heq)

/-- C7 (amended): once the headers parse, a section table with no `.reloc`
section makes `open` fail with `SectionNotFound` (initialization aborts
before the handle is usable: there is no "empty relocation set" outcome);
and a table with no `.text` section makes `open` fail with
`SectionNotFound` provided the relocation pass completes — the `.text`
lookup runs only after `_populate_relocations`, so a `.text`-less binary
whose relocation pass itself fails propagates that earlier error instead
(see the counterexample below). -/
theorem open_fails_without_text_or_reloc (file : List Nat) (fuel : Nat) (hdr : PEHeader)
    (base : Int) (secs : List ImageSectionHeader)
    (hp : parseHeaders file = .ok (hdr, base, secs)) :
    (secs.find? (fun s => section_name_match s relocName) = none →
      enter fuel file = some ⟨.error .sectionNotFound, true⟩)
  ∧ (∀ b', Bin.populate_relocations fuel (initBin file base secs) = some (.ok b') →
      secs.find? (fun s => section_name_match s textName) = none →
      enter fuel file = some ⟨.error .sectionNotFound, true⟩) := by
  constructor
  · intro hfind
    have hname : (initBin file base secs).get_section_offset_by_name relocName =
        .error .sectionNotFound := by
      simp [Bin.get_section_offset_by_name, Bin.get_section_by_name, initBin, hfind,
        bind, Except.bind]
    have hpop : Bin.populate_relocations fuel (initBin file base secs) =
        some (.error .sectionNotFound) := by
      rw [Bin.populate_relocations]
      simp only [hname]
    simp only [enter, hp, hpop]
  · intro b' hpop hfind
    have hsec : b'.sections = secs := populate_relocations_sections fuel _ b' hpop
    simp only [enter, hp, hpop, hsec, hfind]

/-- Counterexample to C7 as stated ("open fails with SectionNotFound
whenever the table contains no `.text` section"): `fileShortReloc` parses
to a table whose only section is a 4-byte `.reloc` and which has no
`.text`, yet open fails with `struct.error` — the clamped 4-byte header
read aborts the relocation pass before the `.text` lookup is reached —
not with `SectionNotFound`. -/
theorem open_without_text_fails_with_struct_error_cex :
    parseHeaders fileShortReloc
      = .ok (⟨[0x50, 0x45], 0, 1, 0, 0, 0, 0x20, 0⟩, 0, [shortRelocSection]) ∧
    [shortRelocSection].find? (fun s => section_name_match s textName) = none ∧
    enter 1 fileShortReloc = some ⟨.error .structError, true⟩ := by decide

/-- Witness for the amended C7: the crafted header-only file (no sections
at all, so no `.reloc`) and the crafted `.reloc`-but-no-`.text` file with
a completing relocation pass both make open fail with `SectionNotFound`. -/
theorem open_fails_without_text_or_reloc_witness :
    (enter 1 fileNoSections = some ⟨.error .sectionNotFound, true⟩) ∧
    (enter 1 fileOnlyReloc = some ⟨.error .sectionNotFound, true⟩) := by
  constructor
  · exact (open_fails_without_text_or_reloc fileNoSections 1
      ⟨[0x50, 0x45], 0, 0, 0, 0, 0, 0x20, 0⟩ 0 [] (by decide)).1 (by decide)
  · exact (open_fails_without_text_or_reloc fileOnlyReloc 1
      ⟨[0x50, 0x45], 0, 1, 0, 0, 0, 0x20, 0⟩ 0 [relocSection] (by decide)).2
      { initBin fileOnlyReloc 0 [relocSection] with last_section := some relocSection }
      (by rfl) (by decide)

/-- Little-endian 4-byte round trip. -/
theorem leVal_le32bytes (n : Nat) (h : n < 4294967296) : leVal (le32bytes n) = n := by
  simp only [le32bytes, leVal]
  omega

/-- Decoding the concatenated 2-byte encodings recovers the entries. -/
theorem le16chunks_flatten (es : List Nat) (h : ∀ e ∈ es, e < 65536) :
    le16chunks ((es.map le16bytes).flatten) = es := by
  induction es with
  | nil => rfl
  | cons e rest ih =>
    simp only [List.map_cons, List.flatten_cons, le16bytes, List.cons_append, List.nil_append]
    rw [le16chunks]
    have he : e % 256 + 256 * (e / 256 % 256) = e := by
      have := h e (List.mem_cons_self e rest)
      omega
    rw [he, ih (fun x hx => h x (List.mem_cons_of_mem _ hx))]

/-- Length of the concatenated entry encodings. -/
theorem length_flatten_le16 (es : List Nat) :
    ((es.map le16bytes).flatten).length = 2 * es.length := by
  induction es with
  | nil => rfl
  | cons e rest ih =>
    simp only [List.map_cons, List.flatten_cons, List.length_append, ih, le16bytes]
    simp only [List.length_cons, List.length_nil]
    omega

/-- Length of an encoded block. -/
theorem length_encodeBlock (blk : RelocBlock) :
    (encodeBlock blk).length = 8 + 2 * blk.2.length := by
  simp only [encodeBlock, List.length_append, le32bytes, length_flatten_le16]
  simp only [List.length_cons, List.length_nil]

/-- A sub-slice of a known slice is the matching slice of the witness
list. -/
theorem listSlice_sub (file e : List Nat) (r L k m : Nat)
    (h : listSlice file r L = e) (hk : k + m ≤ L) :
    listSlice file (r + k) m = (e.drop k).take m := by
  subst h
  simp only [listSlice]
  rw [← List.drop_drop, List.drop_take, List.take_take,
    Nat.min_eq_left (by omega : m ≤ L - k)]

/-- A read of `m > 0` bytes that stays inside the unique containing
section `sr` returns exactly the matching raw slice and caches `sr`. -/
theorem read_exact_slice (b : Bin) (sr : ImageSectionHeader) (dN m : Nat)
    (hmem : sr ∈ b.sections)
    (hsize : dN + m ≤ sr.SizeOfRawData)
    (hlt : dN < sr.SizeOfRawData)
    (huniq : ∀ s' ∈ b.sections, section_contains_vaddr s' b.imagebase
        (b.imagebase + (sr.VirtualAddress : Int) + (dN : Int)) = true → s' = sr)
    (hc : cacheWF b) :
    b.read (b.imagebase + (sr.VirtualAddress : Int) + (dN : Int)) ((m : Nat) : Int)
      = .ok (listSlice b.file (sr.PointerToRawData + dN) m,
          { b with last_section := some sr }) := by
  have hcont : section_contains_vaddr sr b.imagebase
      (b.imagebase + (sr.VirtualAddress : Int) + (dN : Int)) = true := by
    simp only [section_contains_vaddr, decide_eq_true_eq]
    omega
  have h := read_in_section b _ ((m : Nat) : Int) sr hmem ⟨hcont, huniq⟩ hc
  rw [h]
  have h1 : ¬ (min ((m : Nat) : Int) ((sr.PointerToRawData : Int) + (sr.SizeOfRawData : Int) -
      (b.imagebase + (sr.VirtualAddress : Int) + (dN : Int) - b.imagebase -
        (sr.VirtualAddress : Int) + (sr.PointerToRawData : Int))) < 0) := by
    omega
  have h2 : (b.imagebase + (sr.VirtualAddress : Int) + (dN : Int) - b.imagebase -
      (sr.VirtualAddress : Int) + (sr.PointerToRawData : Int)).toNat
      = sr.PointerToRawData + dN := by
    omega
  have h3 : (min ((m : Nat) : Int) ((sr.PointerToRawData : Int) + (sr.SizeOfRawData : Int) -
      (b.imagebase + (sr.VirtualAddress : Int) + (dN : Int) - b.imagebase -
        (sr.VirtualAddress : Int) + (sr.PointerToRawData : Int)))).toNat = m := by
    omega
  simp [fileRead, h1, h2, h3, listSlice]

/-- The block walk, run over a well-formed encoded block list that sits
(uniquely) inside section `sr`, terminates at the zero-size block having
collected exactly the spec's fixup sites, with `sr` cached. -/
theorem reloc_walk_spec (blocks : List RelocBlock) :
    ∀ (fuel : Nat) (b : Bin) (sr : ImageSectionHeader) (dN : Nat) (acc : List Int),
    sr ∈ b.sections →
    cacheWF b →
    blocks.length < fuel →
    blocksWF blocks →
    dN + (encodeBlocks blocks ++ term8).length ≤ sr.SizeOfRawData →
    (∀ k, k < (encodeBlocks blocks ++ term8).length →
      ∀ s' ∈ b.sections,
        section_contains_vaddr s' b.imagebase
          (b.imagebase + (sr.VirtualAddress : Int) + ((dN + k : Nat) : Int)) = true → s' = sr) →
    listSlice b.file (sr.PointerToRawData + dN) (encodeBlocks blocks ++ term8).length
      = encodeBlocks blocks ++ term8 →
    reloc_walk fuel b (b.imagebase + (sr.VirtualAddress : Int) + (dN : Int)) acc
      = some (.ok (acc ++ specSites b.imagebase blocks,
          { b with last_section := some sr })) := by
  induction blocks with
  | nil =>
    intro fuel b sr dN acc hmem hc hfuel hwf hrange huniq hslice
    cases fuel with
    | zero => omega
    | succ f =>
      simp only [encodeBlocks, List.nil_append, term8, List.length_replicate] at hrange huniq hslice
      have huniq0 : ∀ s' ∈ b.sections, section_contains_vaddr s' b.imagebase
          (b.imagebase + (sr.VirtualAddress : Int) + (dN : Int)) = true → s' = sr := by
        intro s' hs' hcont
        refine huniq 0 (by omega) s' hs' ?_
        simpa using hcont
      have hread := read_exact_slice b sr dN 8 hmem (by omega) (by omega) huniq0 hc
      rw [hslice] at hread
      simp only [Nat.cast_ofNat] at hread
      rw [reloc_walk, hread]
      simp only [specSites, List.append_nil]
      rfl
  | cons blk rest ih =>
    obtain ⟨page, es⟩ := blk
    intro fuel b sr dN acc hmem hc hfuel hwf hrange huniq hslice
    cases fuel with
    | zero =>
      simp only [List.length_cons] at hfuel
      omega
    | succ f =>
      have hassoc : encodeBlocks ((page, es) :: rest) ++ term8
          = encodeBlock (page, es) ++ (encodeBlocks rest ++ term8) := by
        simp [encodeBlocks, List.append_assoc]
      have hL1 : (encodeBlock (page, es)).length = 8 + 2 * es.length := length_encodeBlock _
      have hrest8 : 8 ≤ (encodeBlocks rest ++ term8).length := by
        simp [term8, List.length_append]
      have hencl : (encodeBlocks ((page, es) :: rest) ++ term8).length
          = (8 + 2 * es.length) + (encodeBlocks rest ++ term8).length := by
        rw [hassoc, List.length_append, hL1]
      obtain ⟨hp32, hbs32, hes⟩ := hwf (page, es) (List.mem_cons_self _ _)
      -- first read: the 8-byte block header
      have huniq0 : ∀ s' ∈ b.sections, section_contains_vaddr s' b.imagebase
          (b.imagebase + (sr.VirtualAddress : Int) + (dN : Int)) = true → s' = sr := by
        intro s' hs' hcont
        refine huniq 0 (by omega) s' hs' ?_
        simpa using hcont
      have hread1 := read_exact_slice b sr dN 8 hmem (by omega) (by omega) huniq0 hc
      have hhdr8len : (le32bytes page ++ le32bytes (8 + 2 * es.length)).length = 8 := by
        simp [le32bytes]
      have hsl1 : listSlice b.file (sr.PointerToRawData + dN) 8
          = le32bytes page ++ le32bytes (8 + 2 * es.length) := by
        have hsub := listSlice_sub b.file _ (sr.PointerToRawData + dN) _ 0 8 hslice (by omega)
        rw [Nat.add_zero] at hsub
        rw [hsub, List.drop_zero, hassoc, encodeBlock]
        simp only [← List.append_assoc]
        rw [List.append_assoc (le32bytes page)]
        exact List.take_left' hhdr8len
      rw [hsl1] at hread1
      simp only [Nat.cast_ofNat] at hread1
      rw [reloc_walk, hread1]
      simp only [hhdr8len, if_pos, List.take_left' (by simp [le32bytes] : (le32bytes page).length = 4),
        List.drop_left' (by simp [le32bytes] : (le32bytes page).length = 4),
        leVal_le32bytes page hp32, leVal_le32bytes _ hbs32]
      rw [if_neg (by omega : ¬ (8 + 2 * es.length = 0))]
      -- second read: the entry bytes
      have haddr8 : b.imagebase + (sr.VirtualAddress : Int) + (dN : Int) + 8
          = b.imagebase + (sr.VirtualAddress : Int) + ((dN + 8 : Nat) : Int) := by
        push_cast
        ring
      have hsz2 : ((8 + 2 * es.length : Nat) : Int) - 8 = ((2 * es.length : Nat) : Int) := by
        push_cast
        ring
      rw [haddr8, hsz2]
      have huniq8 : ∀ s' ∈ b.sections, section_contains_vaddr s' b.imagebase
          (b.imagebase + (sr.VirtualAddress : Int) + ((dN + 8 : Nat) : Int)) = true → s' = sr :=
        fun s' hs' hcont => huniq 8 (by omega) s' hs' hcont
      have hsl2 : listSlice b.file (sr.PointerToRawData + (dN + 8)) (2 * es.length)
          = (es.map le16bytes).flatten := by
        have hsub := listSlice_sub b.file _ (sr.PointerToRawData + dN) _ 8 (2 * es.length)
          hslice (by omega)
        rw [show sr.PointerToRawData + dN + 8 = sr.PointerToRawData + (dN + 8) by omega] at hsub
        rw [hsub, hassoc, encodeBlock]
        exact List.take_left' (length_flatten_le16 es)
      have hread2 := read_exact_slice { b with last_section := some sr } sr (dN + 8)
        (2 * es.length) hmem (by omega) (by omega) huniq8 (Or.inr ⟨sr, hmem, rfl⟩)
      dsimp only at hread2
      rw [hsl2] at hread2
      simp only [hread2]
      rw [length_flatten_le16, if_pos (by omega : (2 * es.length) % 2 = 0)]
      rw [le16chunks_flatten es hes]
      have haddr2 : b.imagebase + (sr.VirtualAddress : Int) + (dN : Int)
            + ((8 + 2 * es.length : Nat) : Int)
          = b.imagebase + (sr.VirtualAddress : Int) + ((dN + (8 + 2 * es.length) : Nat) : Int) := by
        push_cast
        ring
      rw [haddr2]
      have hrange2 : (dN + (8 + 2 * es.length)) + (encodeBlocks rest ++ term8).length
          ≤ sr.SizeOfRawData := by
        omega
      have huniq2 : ∀ k, k < (encodeBlocks rest ++ term8).length →
          ∀ s' ∈ b.sections, section_contains_vaddr s' b.imagebase
            (b.imagebase + (sr.VirtualAddress : Int)
              + ((dN + (8 + 2 * es.length) + k : Nat) : Int)) = true → s' = sr := by
        intro k hk s' hs' hcont
        refine huniq (8 + 2 * es.length + k) (by omega) s' hs' ?_
        rw [show dN + (8 + 2 * es.length + k) = dN + (8 + 2 * es.length) + k by omega]
        exact hcont
      have hslice2 : listSlice b.file (sr.PointerToRawData + (dN + (8 + 2 * es.length)))
          (encodeBlocks rest ++ term8).length = encodeBlocks rest ++ term8 := by
        have hsub := listSlice_sub b.file _ (sr.PointerToRawData + dN) _ (8 + 2 * es.length)
          (encodeBlocks rest ++ term8).length hslice (by omega)
        rw [show sr.PointerToRawData + dN + (8 + 2 * es.length)
          = sr.PointerToRawData + (dN + (8 + 2 * es.length)) by omega] at hsub
        rw [hsub, hassoc, List.drop_left' hL1, List.take_length]
      have hwf2 : blocksWF rest := fun blk' h' => hwf blk' (List.mem_cons_of_mem _ h')
      have hstep := ih f { b with last_section := some sr } sr (dN + (8 + 2 * es.length))
        (acc ++ (es.filter (fun v => decide (v ≠ 0))).map
          (fun v => b.imagebase + (page : Int) + ((v &&& 4095 : Nat) : Int)))
        hmem (Or.inr ⟨sr, hmem, rfl⟩) (by simp only [List.length_cons] at hfuel; omega)
        hwf2 hrange2 huniq2 hslice2
      dsimp only at hstep
      rw [hstep]
      simp [specSites, List.append_assoc]

/-- The second relocation pass, run over clean site addresses, succeeds
and adds exactly the 4-byte little-endian values stored at those sites. -/
theorem read_reloc_values_spec : ∀ (addrs : List Int) (b : Bin),
    cacheWF b →
    (∀ a ∈ addrs, siteClean b.sections b.imagebase b.file a) →
    ∃ b', read_reloc_values b addrs = .ok b' ∧
      b'.relocated_addrs = b.relocated_addrs ∪
        (addrs.map (valueAt b.sections b.imagebase b.file)).toFinset ∧
      b'.sections = b.sections ∧ b'.imagebase = b.imagebase ∧ b'.file = b.file := by
  intro addrs
  induction addrs with
  | nil =>
    intro b hc hclean
    exact ⟨b, rfl, by simp, rfl, rfl, rfl⟩
  | cons a rest ih =>
    intro b hc hclean
    obtain ⟨s, hs, ⟨hcont, huni⟩, hfit, hflen⟩ := hclean a (List.mem_cons_self a rest)
    have hread := read_in_section b a 4 s hs ⟨hcont, huni⟩ hc
    have hcont' := hcont
    rw [section_contains_vaddr] at hcont'
    simp only [decide_eq_true_eq] at hcont'
    obtain ⟨h0, h1⟩ := hcont'
    have e1 : ¬ (min (4 : Int) ((s.PointerToRawData : Int) + (s.SizeOfRawData : Int) -
        (a - b.imagebase - (s.VirtualAddress : Int) + (s.PointerToRawData : Int))) < 0) := by
      omega
    have e2 : (a - b.imagebase - (s.VirtualAddress : Int) + (s.PointerToRawData : Int)).toNat
        = (a - b.imagebase - (s.VirtualAddress : Int)).toNat + s.PointerToRawData := by
      omega
    have e3 : (min (4 : Int) ((s.PointerToRawData : Int) + (s.SizeOfRawData : Int) -
        (a - b.imagebase - (s.VirtualAddress : Int) + (s.PointerToRawData : Int)))).toNat
        = 4 := by
      omega
    rw [show fileRead b.file
        (a - b.imagebase - (s.VirtualAddress : Int) + (s.PointerToRawData : Int))
        (min (4 : Int) ((s.PointerToRawData : Int) + (s.SizeOfRawData : Int) -
          (a - b.imagebase - (s.VirtualAddress : Int) + (s.PointerToRawData : Int))))
        = listSlice b.file
          ((a - b.imagebase - (s.VirtualAddress : Int)).toNat + s.PointerToRawData) 4 by
      simp [fileRead, e1, e2, e3, listSlice]] at hread
    have hlen4 : (listSlice b.file
        ((a - b.imagebase - (s.VirtualAddress : Int)).toNat + s.PointerToRawData) 4).length
        = 4 := by
      simp only [listSlice, List.length_take, List.length_drop]
      omega
    have hfind : b.sections.find? (fun s' => section_contains_vaddr s' b.imagebase a)
        = some s := find?_eq_some_of_unique _ _ _ hs hcont huni
    have hval : valueAt b.sections b.imagebase b.file a
        = (leVal (listSlice b.file
            ((a - b.imagebase - (s.VirtualAddress : Int)).toNat + s.PointerToRawData) 4) : Int) := by
      simp only [valueAt, hfind]
    rw [read_reloc_values]
    simp only [hread]
    rw [if_pos hlen4]
    obtain ⟨b', hrun, hset, hsec, hib, hfile⟩ := ih
      { b with
        last_section := some s,
        relocated_addrs := insert (leVal (listSlice b.file
          ((a - b.imagebase - (s.VirtualAddress : Int)).toNat + s.PointerToRawData) 4) : Int)
            b.relocated_addrs }
      (Or.inr ⟨s, hs, rfl⟩)
      (fun a' ha' => hclean a' (List.mem_cons_of_mem _ ha'))
    refine ⟨b', hrun, ?_, hsec, hib, hfile⟩
    rw [hset]
    dsimp only
    ext x
    simp only [Finset.mem_union, Finset.mem_insert, List.map_cons, List.toFinset_cons,
      List.mem_toFinset, hval]
    tauto

/-- C2: on a well-formed binary — `.reloc` is found, its contents encode a
terminated block list lying (uniquely) inside `.reloc`'s raw extent, and
every fixup site is cleanly resolvable — `_populate_relocations` succeeds
and the resulting RelocatedAddressSet is exactly the set of 4-byte
little-endian values stored at the spec's fixup sites
`imagebase + page_base + (entry & 0xFFF)` (entry 0 skipped, walk ended by
the zero-size block), not the site addresses themselves. -/
theorem populate_relocations_refines_spec (b : Bin) (sr : ImageSectionHeader)
    (blocks : List RelocBlock) (fuel : Nat)
    (hempty : b.relocated_addrs = ∅)
    (hcache : cacheWF b)
    (hfind : b.sections.find? (fun s => section_name_match s relocName) = some sr)
    (hfuel : blocks.length < fuel)
    (hwf : blocksWF blocks)
    (hrange : (encodeBlocks blocks ++ term8).length ≤ sr.SizeOfRawData)
    (huniq : ∀ k, k < (encodeBlocks blocks ++ term8).length →
      ∀ s' ∈ b.sections, section_contains_vaddr s' b.imagebase
        (b.imagebase + (sr.VirtualAddress : Int) + (k : Int)) = true → s' = sr)
    (hslice : listSlice b.file sr.PointerToRawData (encodeBlocks blocks ++ term8).length
      = encodeBlocks blocks ++ term8)
    (hsites : ∀ a ∈ specSites b.imagebase blocks,
      siteClean b.sections b.imagebase b.file a) :
    ∃ b', Bin.populate_relocations fuel b = some (.ok b') ∧
      b'.relocated_addrs =
        ((specSites b.imagebase blocks).map (valueAt b.sections b.imagebase b.file)).toFinset := by
  have hofs : b.get_section_offset_by_name relocName
      = .ok (b.imagebase + (sr.VirtualAddress : Int)) := by
    simp [Bin.get_section_offset_by_name, Bin.get_section_by_name, hfind, bind, Except.bind]
  have hmem := List.mem_of_find?_eq_some hfind
  have hwalk := reloc_walk_spec blocks fuel b sr 0 [] hmem hcache hfuel hwf
    (by simpa using hrange)
    (by
      intro k hk s' hs' hcont
      exact huniq k hk s' hs' (by simpa using hcont))
    (by simpa using hslice)
  rw [show b.imagebase + (sr.VirtualAddress : Int) + ((0 : Nat) : Int)
    = b.imagebase + (sr.VirtualAddress : Int) by push_cast; ring] at hwalk
  rw [List.nil_append] at hwalk
  have hsites' : ∀ a ∈ sortInts (specSites b.imagebase blocks),
      siteClean b.sections b.imagebase b.file a := by
    intro a ha
    exact hsites a (by simpa [sortInts, List.mem_insertionSort] using ha)
  obtain ⟨b', hrun, hset, hsec, hib, hfile⟩ := read_reloc_values_spec
    (sortInts (specSites b.imagebase blocks)) { b with last_section := some sr }
    (Or.inr ⟨sr, hmem, rfl⟩) hsites'
  refine ⟨b', ?_, ?_⟩
  · rw [Bin.populate_relocations]
    simp only [hofs, hwalk, hrun]
  · rw [hset]
    dsimp only
    rw [hempty]
    ext x
    simp [sortInts, List.mem_insertionSort]

/-- Witness for C2: on the crafted two-section instance with one
relocation block (entries 0x10 and 0x12 on page 0x100), the decoder
produces exactly the values stored at the two fixup sites. -/
theorem populate_relocations_refines_spec_witness :
    ∃ b', Bin.populate_relocations 2 binW = some (.ok b') ∧
      b'.relocated_addrs =
        ((specSites binW.imagebase blocksW).map
          (valueAt binW.sections binW.imagebase binW.file)).toFinset :=
  populate_relocations_refines_spec binW relocSectionW blocksW 2 rfl (Or.inl rfl)
    (by decide) (by decide) (by decide) (by decide) (by decide) (by decide) (by decide)
